import Mathlib

/-!
Verification of the token-classification-and-merging core of the
speedread server (`src/api/index.py`): the `DELAY_GROUPS` rule table,
the `get_group` classifier and the `combine_with_punctuation` merge scan.

A spaCy token is modelled by the three attributes the core reads:
`token.text`, `token.pos_` and `token.ent_type_` (all strings; spaCy's
`ent_type_` is the empty string when the token is not part of a named
entity, and Python's truthiness test `if token.ent_type_:` is the test
`ent_type_ ≠ ""`).
-/

structure SpacyToken where
  text : String
  pos_ : String
  ent_type_ : String
deriving DecidableEq, Repr

/-- `DELAY_GROUPS['punctuation']` in the source. -/
def punctuation_tags : List String := ["PUNCT", "SPACE", "SYM"]

/-- The rule table of the source, as the ordered association list that
Python's insertion-ordered dict iteration exposes to `get_group`. -/
def DELAY_GROUPS : List (String × List String) :=
  [("named_entity", []),
   ("content", ["NOUN", "PROPN", "VERB", "ADJ", "INTJ"]),
   ("function", ["DET", "PRON", "ADP", "AUX", "CCONJ", "SCONJ"]),
   ("modifier", ["ADV", "NUM"]),
   ("punctuation", punctuation_tags)]

/-- The `for group, tags in DELAY_GROUPS.items()` loop of `get_group`:
first group whose tag list contains the tag, else `'other'`. -/
def lookupGroup : List (String × List String) → String → String
  | [], _ => "other"
  | (group, tags) :: rest, tag =>
      if tag ∈ tags then group else lookupGroup rest tag

/-- `get_group` from the source: named-entity check first, then the
table scan. -/
def get_group (token : SpacyToken) : String :=
  if token.ent_type_ ≠ "" then "named_entity"
  else lookupGroup DELAY_GROUPS token.pos_

/-- The loop state of `combine_with_punctuation`: the two output lists
built so far and the pending accumulator.  `current_group` is `none`
exactly when the Python variable still holds its initial `None`. -/
structure MState where
  combined_tokens : List String
  combined_groups : List (Option String)
  current_token : String
  current_group : Option String
deriving DecidableEq, Repr

def initState : MState :=
  { combined_tokens := [], combined_groups := [],
    current_token := "", current_group := none }

/-- One iteration of the `for i, token in enumerate(doc)` loop, without
the trailing `if i == len(doc) - 1` flush.  Python's truthiness test
`if current_token:` is `current_token ≠ ""`. -/
def step (s : MState) (token : SpacyToken) : MState :=
  if token.pos_ ∈ punctuation_tags then
    if s.current_token ≠ "" then
      { s with current_token := s.current_token ++ token.text }
    else
      { s with current_token := token.text,
               current_group := some (get_group token) }
  else
    if s.current_token ≠ "" then
      { combined_tokens := s.combined_tokens ++ [s.current_token],
        combined_groups := s.combined_groups ++ [s.current_group],
        current_token := token.text,
        current_group := some (get_group token) }
    else
      { s with current_token := token.text,
               current_group := some (get_group token) }

/-- The scan loop.  The `if i == len(doc) - 1` test fires exactly in the
iteration that consumes the last token, after that token's branch, so it
is rendered as the singleton case performing the step and then the
unconditional flush. -/
def goScan (s : MState) : List SpacyToken → List String × List (Option String)
  | [] => (s.combined_tokens, s.combined_groups)
  | [token] =>
      let s' := step s token
      (s'.combined_tokens ++ [s'.current_token],
       s'.combined_groups ++ [s'.current_group])
  | token :: rest => goScan (step s token) rest

/-- `combine_with_punctuation` from the source. -/
def combine_with_punctuation (doc : List SpacyToken) :
    List String × List (Option String) :=
  goScan initState doc

/-- Concatenation of a list of strings, in order. -/
def concatList : List String → String
  | [] => ""
  | x :: xs => x ++ concatList xs

/-- The classifier as §8 of the spec words it for non-entity tokens:
the four tag sets checked in the documented order, `other` as fallback. -/
def classify_spec (tag : String) : String :=
  if tag ∈ ["NOUN", "PROPN", "VERB", "ADJ", "INTJ"] then "content"
  else if tag ∈ ["DET", "PRON", "ADP", "AUX", "CCONJ", "SCONJ"] then "function"
  else if tag ∈ ["ADV", "NUM"] then "modifier"
  else if tag ∈ ["PUNCT", "SPACE", "SYM"] then "punctuation"
  else "other"

/-- The six category labels the service can emit. -/
def allLabels : List String :=
  ["named_entity", "content", "function", "modifier", "punctuation", "other"]

/-- Weight of the pending accumulator: 1 when it holds text. -/
def curWeight (s : MState) : Nat := if s.current_token = "" then 0 else 1

/-- Invariant of the scan state: the two output lists are in lockstep,
every recorded group is one of the six labels, and the pending group is
one of the six labels. -/
def GoodState (s : MState) : Prop :=
  s.combined_tokens.length = s.combined_groups.length ∧
  (∀ x ∈ s.combined_groups, ∃ g, x = some g ∧ g ∈ allLabels) ∧
  (∃ g, s.current_group = some g ∧ g ∈ allLabels)

-- Basic characterisations of the scan.

lemma goScan_cons_cons (s : MState) (t u : SpacyToken) (rest : List SpacyToken) :
    goScan s (t :: u :: rest) = goScan (step s t) (u :: rest) := rfl

lemma goScan_eq_foldl (l : List SpacyToken) (hl : l ≠ []) (s : MState) :
    goScan s l =
      ((l.foldl step s).combined_tokens ++ [(l.foldl step s).current_token],
       (l.foldl step s).combined_groups ++ [(l.foldl step s).current_group]) := by
  induction l generalizing s with
  | nil => exact absurd rfl hl
  | cons t rest ih =>
      cases rest with
      | nil => simp [goScan, List.foldl]
      | cons u rest' =>
          rw [goScan_cons_cons]
          rw [ih (by simp) (step s t)]
          simp [List.foldl]

/-- `get_group` only produces the six labels. -/
lemma get_group_mem_allLabels (t : SpacyToken) : get_group t ∈ allLabels := by
  unfold get_group
  split
  · simp [allLabels]
  · simp only [DELAY_GROUPS, punctuation_tags, lookupGroup, allLabels]
    split_ifs <;> simp

-- String and concatenation helpers.

lemma concatList_append (a b : List String) :
    concatList (a ++ b) = concatList a ++ concatList b := by
  induction a with
  | nil => simp [concatList]
  | cons x xs ih => simp [concatList, ih, String.append_assoc]

lemma append_ne_empty_left (a b : String) (h : a ≠ "") : a ++ b ≠ "" := by
  intro hab
  have hd := congrArg String.data hab
  rw [String.data_append] at hd
  have ha : a.data = [] := (List.append_eq_nil.mp hd).1
  exact h (by cases a; cases ha; rfl)

-- Text preservation through one step of the scan.

lemma step_concat (s : MState) (t : SpacyToken) :
    concatList (step s t).combined_tokens ++ (step s t).current_token =
      concatList s.combined_tokens ++ s.current_token ++ t.text := by
  unfold step
  split_ifs <;>
    simp_all [concatList_append, concatList, String.append_assoc]

lemma foldl_concat (l : List SpacyToken) (s : MState) :
    concatList (l.foldl step s).combined_tokens ++
        (l.foldl step s).current_token =
      concatList s.combined_tokens ++ s.current_token ++
        concatList (l.map (·.text)) := by
  induction l generalizing s with
  | nil => simp [concatList]
  | cons t rest ih =>
      simp only [List.foldl_cons, List.map_cons, concatList]
      rw [ih (step s t), step_concat, String.append_assoc]

-- Length bound: each step adds at most one finished group, and a step
-- can only finish a group that already held text.

lemma step_weight_le (s : MState) (t : SpacyToken) :
    (step s t).combined_tokens.length + curWeight (step s t) ≤
      s.combined_tokens.length + curWeight s + 1 := by
  unfold step curWeight
  split_ifs <;> simp_all
  omega

lemma step_tokens_le (s : MState) (t : SpacyToken) :
    (step s t).combined_tokens.length ≤
      s.combined_tokens.length + curWeight s := by
  unfold step curWeight
  split_ifs <;> simp_all

lemma foldl_tokens_lt (l : List SpacyToken) (hl : l ≠ []) (s : MState) :
    (l.foldl step s).combined_tokens.length + 1 ≤
      s.combined_tokens.length + curWeight s + l.length := by
  induction l generalizing s with
  | nil => exact absurd rfl hl
  | cons t rest ih =>
      cases rest with
      | nil =>
          have := step_tokens_le s t
          simp only [List.foldl_cons, List.foldl_nil, List.length_cons,
            List.length_nil]
          omega
      | cons u rest' =>
          have h1 := ih (by simp) (step s t)
          have h2 := step_weight_le s t
          simp only [List.foldl_cons] at h1 ⊢
          simp only [List.length_cons] at h1 ⊢
          omega

-- Lockstep and label invariants.

lemma step_good (s : MState) (t : SpacyToken) (hs : GoodState s) :
    GoodState (step s t) := by
  obtain ⟨hlen, hgrps, g, hg, hmem⟩ := hs
  unfold step
  split_ifs
  · exact ⟨hlen, hgrps, g, hg, hmem⟩
  · exact ⟨hlen, hgrps, get_group t, rfl, get_group_mem_allLabels t⟩
  · refine ⟨by simp [hlen], ?_, get_group t, rfl, get_group_mem_allLabels t⟩
    intro x hx
    rcases List.mem_append.mp hx with hx | hx
    · exact hgrps x hx
    · exact ⟨g, by rw [List.mem_singleton.mp hx, hg], hmem⟩
  · exact ⟨hlen, hgrps, get_group t, rfl, get_group_mem_allLabels t⟩

lemma step_good_of_empty (s : MState) (t : SpacyToken)
    (hlen : s.combined_tokens.length = s.combined_groups.length)
    (hgrps : ∀ x ∈ s.combined_groups, ∃ g, x = some g ∧ g ∈ allLabels)
    (hc : s.current_token = "") : GoodState (step s t) := by
  unfold step
  split_ifs with h1 h2 h3
  · exact absurd hc h2
  · exact ⟨by simpa using hlen, by simpa using hgrps,
      get_group t, rfl, get_group_mem_allLabels t⟩
  · exact absurd hc h3
  · exact ⟨by simpa using hlen, by simpa using hgrps,
      get_group t, rfl, get_group_mem_allLabels t⟩

lemma foldl_good (l : List SpacyToken) (s : MState) (hs : GoodState s) :
    GoodState (l.foldl step s) := by
  induction l generalizing s with
  | nil => exact hs
  | cons t rest ih => exact ih (step s t) (step_good s t hs)

-- Persistence: once a nonempty group is pending with a given category,
-- that category reaches the output (it is either flushed into the
-- finished groups or still pending at the end of the scan).

lemma step_persists (s : MState) (t : SpacyToken) (g : String)
    (h : some g ∈ s.combined_groups ∨
      (s.current_token ≠ "" ∧ s.current_group = some g)) :
    some g ∈ (step s t).combined_groups ∨
      ((step s t).current_token ≠ "" ∧ (step s t).current_group = some g) := by
  rcases h with hmem | ⟨hc, hg⟩
  · unfold step
    split_ifs <;> simp_all
  · unfold step
    by_cases h1 : t.pos_ ∈ punctuation_tags
    · rw [if_pos h1, if_pos hc]
      exact Or.inr ⟨append_ne_empty_left _ _ hc, hg⟩
    · rw [if_neg h1, if_pos hc]
      exact Or.inl (by simp [hg])

lemma foldl_persists (l : List SpacyToken) (s : MState) (g : String)
    (h : some g ∈ s.combined_groups ∨
      (s.current_token ≠ "" ∧ s.current_group = some g)) :
    some g ∈ (l.foldl step s).combined_groups ∨
      ((l.foldl step s).current_token ≠ "" ∧
        (l.foldl step s).current_group = some g) := by
  induction l generalizing s with
  | nil => exact h
  | cons t rest ih => exact ih (step s t) (step_persists s t g h)

-- A run of punctuation tokens only grows the pending text.

lemma foldl_punct_run (l : List SpacyToken)
    (hl : ∀ u ∈ l, u.pos_ ∈ punctuation_tags) (s : MState)
    (hc : s.current_token ≠ "") :
    l.foldl step s =
      { s with current_token :=
          s.current_token ++ concatList (l.map (·.text)) } := by
  induction l generalizing s with
  | nil => simp [concatList]
  | cons t rest ih =>
      have hstep : step s t = { s with current_token :=
          s.current_token ++ t.text } := by
        unfold step
        rw [if_pos (hl t (by simp)), if_pos hc]
      simp only [List.foldl_cons, hstep]
      rw [ih (fun u hu => hl u (by simp [hu])) _
        (append_ne_empty_left _ _ hc)]
      simp [concatList, String.append_assoc]

-- Starting a fresh group on a punctuation token.

lemma step_punct_empty (s : MState) (t : SpacyToken)
    (hpos : t.pos_ ∈ punctuation_tags) (hc : s.current_token = "") :
    step s t = { s with
      current_token := t.text
      current_group := some (get_group t) } := by
  unfold step
  rw [if_pos hpos, if_neg (by simp [hc])]

/-- Claim C1: the concatenation of the merged texts returned by
`combine_with_punctuation`, in output order, equals the concatenation of
the input token texts, in input order. -/
theorem combine_text_roundtrip (doc : List SpacyToken) :
    concatList (combine_with_punctuation doc).1 =
      concatList (doc.map (·.text)) := by
  cases doc with
  | nil => rfl
  | cons t rest =>
      unfold combine_with_punctuation
      rw [goScan_eq_foldl _ (by simp) initState]
      have h := foldl_concat (t :: rest) initState
      rw [concatList_append]
      simpa [concatList, initState] using h

/-- Claim C2: for every token whose named-entity annotation is set (a
nonempty `ent_type_`), `get_group` returns `named_entity`, whatever the
part-of-speech tag is. -/
theorem get_group_named_entity_precedence (t : SpacyToken)
    (h : t.ent_type_ ≠ "") : get_group t = "named_entity" := by
  unfold get_group
  rw [if_pos h]

theorem get_group_named_entity_precedence_witness :
    (SpacyToken.mk "." "PUNCT" "GPE").ent_type_ ≠ "" ∧
    get_group (SpacyToken.mk "." "PUNCT" "GPE") = "named_entity" :=
  ⟨by decide, get_group_named_entity_precedence _ (by decide)⟩

/-- Claim C3: for every token that is not a named entity, `get_group`
returns exactly the category that the fixed rule table assigns to its
part-of-speech tag (`other` when no tag set contains it). -/
theorem get_group_eq_classify_spec (t : SpacyToken)
    (h : t.ent_type_ = "") : get_group t = classify_spec t.pos_ := by
  simp [get_group, classify_spec, DELAY_GROUPS, punctuation_tags,
    lookupGroup, h]

theorem get_group_eq_classify_spec_witness :
    (SpacyToken.mk "cat" "NOUN" "").ent_type_ = "" ∧
    get_group (SpacyToken.mk "cat" "NOUN" "") =
      classify_spec (SpacyToken.mk "cat" "NOUN" "").pos_ :=
  ⟨rfl, get_group_eq_classify_spec _ rfl⟩

/-- Claim C4: a punctuation-tagged token that is flagged as a named
entity and arrives while the accumulator is empty starts a fresh group
whose category is `named_entity` (the merger invokes the classifier for
a token starting a fresh accumulator regardless of its tag), and that
category reaches the output. -/
theorem punct_named_entity_fresh_group (pre post : List SpacyToken)
    (t : SpacyToken) (hpos : t.pos_ ∈ punctuation_tags)
    (hent : t.ent_type_ ≠ "") (htext : t.text ≠ "")
    (hacc : (pre.foldl step initState).current_token = "") :
    (step (pre.foldl step initState) t).current_group =
      some "named_entity" ∧
    some "named_entity" ∈
      (combine_with_punctuation (pre ++ t :: post)).2 := by
  have hg : get_group t = "named_entity" := by
    unfold get_group
    rw [if_pos hent]
  have hstep := step_punct_empty (pre.foldl step initState) t hpos hacc
  refine ⟨by rw [hstep, hg], ?_⟩
  unfold combine_with_punctuation
  rw [goScan_eq_foldl _ (by simp) initState, List.foldl_append]
  simp only [List.foldl_cons]
  have hpers := foldl_persists post (step (pre.foldl step initState) t)
    "named_entity"
    (Or.inr ⟨by rw [hstep]; exact htext, by rw [hstep, hg]⟩)
  rcases hpers with hmem | ⟨hcur, hgrp⟩
  · simp [hmem]
  · simp [hgrp]

theorem punct_named_entity_fresh_group_witness :
    (SpacyToken.mk "," "PUNCT" "GPE").ent_type_ ≠ "" ∧
    ((step (([] : List SpacyToken).foldl step initState)
        (SpacyToken.mk "," "PUNCT" "GPE")).current_group =
          some "named_entity" ∧
      some "named_entity" ∈
        (combine_with_punctuation
          ([] ++ SpacyToken.mk "," "PUNCT" "GPE" ::
            [SpacyToken.mk "Wow" "INTJ" ""])).2) :=
  ⟨by decide,
    punct_named_entity_fresh_group [] [SpacyToken.mk "Wow" "INTJ" ""]
      (SpacyToken.mk "," "PUNCT" "GPE") (by decide) (by decide)
      (by decide) rfl⟩

/-- Claim C5: on the four tokens "The"/DET, "cat"/NOUN, "sat"/VERB,
"."/PUNCT, none named entities, the merger returns exactly "The" as
function, "cat" as content and "sat." as content, in that order. -/
theorem combine_the_cat_sat_scenario :
    combine_with_punctuation
      [SpacyToken.mk "The" "DET" "", SpacyToken.mk "cat" "NOUN" "",
       SpacyToken.mk "sat" "VERB" "", SpacyToken.mk "." "PUNCT" ""] =
      (["The", "cat", "sat."],
       [some "function", some "content", some "content"]) := by decide

/-- Claim C6: a non-empty run consisting solely of punctuation-tagged
tokens merges into a single token carrying all the text, categorised by
the classification of the first token. -/
theorem combine_all_punctuation_run (t : SpacyToken)
    (rest : List SpacyToken)
    (hpos : ∀ u ∈ t :: rest, u.pos_ ∈ punctuation_tags)
    (htext : ∀ u ∈ t :: rest, u.text ≠ "") :
    combine_with_punctuation (t :: rest) =
      ([concatList ((t :: rest).map (·.text))], [some (get_group t)]) := by
  unfold combine_with_punctuation
  rw [goScan_eq_foldl _ (by simp) initState]
  simp only [List.foldl_cons]
  have hstep : step initState t =
      { combined_tokens := [], combined_groups := [],
        current_token := t.text, current_group := some (get_group t) } := by
    unfold step initState
    rw [if_pos (hpos t (by simp)), if_neg (by simp)]
  rw [hstep,
    foldl_punct_run rest (fun u hu => hpos u (by simp [hu])) _
      (htext t (by simp))]
  simp [concatList]

theorem combine_all_punctuation_run_witness :
    combine_with_punctuation
      [SpacyToken.mk "!" "PUNCT" "", SpacyToken.mk "?" "PUNCT" ""] =
      (["!?"], [some "punctuation"]) := by
  rw [combine_all_punctuation_run (SpacyToken.mk "!" "PUNCT" "")
    [SpacyToken.mk "?" "PUNCT" ""] (by decide) (by decide)]
  decide

/-- Claim C7: the merger maps the empty document to the empty pair of
output sequences; the final flush does not fire. -/
theorem combine_empty : combine_with_punctuation [] = ([], []) := rfl

/-- Claim C8: the merger never returns more merged tokens than there
were input tokens. -/
theorem combine_length_le (doc : List SpacyToken) :
    (combine_with_punctuation doc).1.length ≤ doc.length := by
  cases doc with
  | nil => simp [combine_with_punctuation, goScan, initState]
  | cons t rest =>
      unfold combine_with_punctuation
      rw [goScan_eq_foldl _ (by simp) initState]
      have h : (List.foldl step initState (t :: rest)).combined_tokens.length
            + 1 ≤ 0 + 0 + (t :: rest).length :=
        foldl_tokens_lt (t :: rest) (by simp) initState
      simp only [List.length_cons] at h
      simp only [List.length_append, List.length_cons, List.length_nil]
      omega

/-- Claim C9: the merger returns two sequences of equal length, and
every category in the second sequence is one of the six lowercase
labels. -/
theorem combine_parallel_and_labels (doc : List SpacyToken) :
    (combine_with_punctuation doc).1.length =
      (combine_with_punctuation doc).2.length ∧
    ∀ x ∈ (combine_with_punctuation doc).2,
      ∃ g, x = some g ∧ g ∈ allLabels := by
  cases doc with
  | nil => exact ⟨rfl, by simp [combine_with_punctuation, goScan, initState]⟩
  | cons t rest =>
      unfold combine_with_punctuation
      rw [goScan_eq_foldl _ (by simp) initState]
      simp only [List.foldl_cons]
      have hgood : GoodState (rest.foldl step (step initState t)) :=
        foldl_good rest _
          (step_good_of_empty initState t rfl
            (by intro x hx; simp [initState] at hx) rfl)
      obtain ⟨hlen, hgrps, g, hg, hmem⟩ := hgood
      refine ⟨by simp [hlen], ?_⟩
      intro x hx
      rcases List.mem_append.mp hx with hx | hx
      · exact hgrps x hx
      · exact ⟨g, by rw [List.mem_singleton.mp hx, hg], hmem⟩

/-- Claim C10: a non-empty document always yields at least one merged
token, because the final-index flush appends the pending accumulator. -/
theorem combine_nonempty_output (doc : List SpacyToken) (h : doc ≠ []) :
    (combine_with_punctuation doc).1 ≠ [] := by
  unfold combine_with_punctuation
  rw [goScan_eq_foldl doc h initState]
  simp

theorem combine_nonempty_output_witness :
    ([SpacyToken.mk "Run" "VERB" ""] : List SpacyToken) ≠ [] ∧
    (combine_with_punctuation [SpacyToken.mk "Run" "VERB" ""]).1 ≠ [] :=
  ⟨by decide, combine_nonempty_output _ (by decide)⟩
